import Mathlib

/-!
Verification of the rchess position-keyed statistics engine.

The definitions below are a shallow embedding of the JavaScript sources:
`RchessLearner` in the browser module (position map keyed by canonical
hash, game session tracking, fold of completed games, analyzers) and the
sister `learn.js` implementation (move suggestion with exploration
bonus).  JavaScript objects used as string-keyed maps are modelled as
insertion-ordered association lists, JavaScript numbers involved in the
statistics as `Nat`, and score arithmetic as exact rationals.
-/

/-! ## Association lists

JavaScript object property maps (string keys, insertion order).
`lookupA` models a property read, `setA` a property write: it updates in
place when the key exists and appends otherwise. -/

def lookupA {α : Type} (l : List (String × α)) (k : String) : Option α :=
  match l with
  | [] => none
  | (k', v) :: rest => if k' = k then some v else lookupA rest k

def setA {α : Type} (l : List (String × α)) (k : String) (v : α) : List (String × α) :=
  match l with
  | [] => [(k, v)]
  | (k', v') :: rest => if k' = k then (k, v) :: rest else (k', v') :: setA rest k v

theorem lookupA_setA {α : Type} (l : List (String × α)) (k q : String) (v : α) :
    lookupA (setA l k v) q = if k = q then some v else lookupA l q := by
  induction l with
  | nil =>
      by_cases h : k = q <;> simp [setA, lookupA, h]
  | cons p rest ih =>
      obtain ⟨k', v'⟩ := p
      by_cases h1 : k' = k
      · by_cases h2 : k = q
        · simp [setA, lookupA, h1, h2]
        · have h3 : ¬ k' = q := fun hh => h2 (h1.symm.trans hh)
          simp [setA, lookupA, h1, h2, h3]
      · by_cases h2 : k' = q
        · have h3 : ¬ k = q := fun hh => h1 (h2.trans hh.symm)
          have h4 : ¬ q = k := fun hh => h1 (h2.trans hh)
          simp [setA, lookupA, h1, h2, h3, h4]
        · simp [setA, lookupA, h1, h2, ih]

theorem lookupA_append {α : Type} (l₁ l₂ : List (String × α)) (k : String) :
    lookupA (l₁ ++ l₂) k =
      match lookupA l₁ k with
      | some v => some v
      | none => lookupA l₂ k := by
  induction l₁ with
  | nil => simp [lookupA]
  | cons p rest ih =>
      obtain ⟨k', v'⟩ := p
      by_cases h : k' = k <;> simp [lookupA, h, ih]

theorem mem_of_lookupA_eq_some {α : Type} {l : List (String × α)} {k : String} {v : α}
    (h : lookupA l k = some v) : (k, v) ∈ l := by
  induction l with
  | nil => simp [lookupA] at h
  | cons p rest ih =>
      obtain ⟨k', v'⟩ := p
      by_cases hk : k' = k
      · subst hk
        simp [lookupA] at h
        simp [h]
      · simp [lookupA, hk] at h
        exact List.mem_cons_of_mem _ (ih h)

theorem lookupA_eq_some_of_mem_nodup {α : Type} {l : List (String × α)} {k : String} {v : α}
    (hnd : (l.map Prod.fst).Nodup) (hm : (k, v) ∈ l) : lookupA l k = some v := by
  induction l with
  | nil => simp at hm
  | cons p rest ih =>
      obtain ⟨k', v'⟩ := p
      have hnd' : (∀ x : α, (k', x) ∉ rest) ∧ (rest.map Prod.fst).Nodup := by
        simpa using hnd
      rcases List.mem_cons.mp hm with h | h
      · injection h with hk hv
        subst hk
        subst hv
        simp [lookupA]
      · have hne : k' ≠ k := fun he => hnd'.1 v (by rw [he]; exact h)
        simp only [lookupA, if_neg hne]
        exact ih hnd'.2 h

theorem setA_map_fst {α : Type} (l : List (String × α)) (k : String) (v : α) :
    (setA l k v).map Prod.fst =
      if k ∈ l.map Prod.fst then l.map Prod.fst else l.map Prod.fst ++ [k] := by
  induction l with
  | nil => simp [setA]
  | cons p rest ih =>
      obtain ⟨k', v'⟩ := p
      by_cases h : k' = k
      · subst h
        simp [setA]
      · have hne : ¬ k = k' := fun hh => h hh.symm
        by_cases hmem : k ∈ rest.map Prod.fst <;>
          simp [setA, h, hne, hmem, ih]

theorem setA_map_fst_nodup {α : Type} {l : List (String × α)} (k : String) (v : α)
    (hnd : (l.map Prod.fst).Nodup) : ((setA l k v).map Prod.fst).Nodup := by
  rw [setA_map_fst]
  by_cases hmem : k ∈ l.map Prod.fst
  · simpa [hmem] using hnd
  · simp only [hmem, if_false]
    rw [List.nodup_append]
    exact ⟨hnd, List.nodup_singleton _,
      fun a ha hb => hmem ((List.mem_singleton.mp hb) ▸ ha)⟩

/-! ## Stable descending sort

`Array.prototype.sort` with a comparator `(a, b) => key(b) - key(a)` is
required by ECMA-262 to be a stable sort, and with such a comparator the
result is the unique stable descending-by-key reordering.  We model it
with a stable insertion sort. -/

def insertDescBy {α β : Type} [LinearOrder β] (key : α → β) (x : α) : List α → List α
  | [] => [x]
  | y :: ys => if key y ≤ key x then x :: y :: ys else y :: insertDescBy key x ys

def sortDescBy {α β : Type} [LinearOrder β] (key : α → β) : List α → List α
  | [] => []
  | x :: xs => insertDescBy key x (sortDescBy key xs)

theorem insertDescBy_perm {α β : Type} [LinearOrder β] (key : α → β) (x : α) (l : List α) :
    (insertDescBy key x l).Perm (x :: l) := by
  induction l with
  | nil => simp [insertDescBy]
  | cons y ys ih =>
      by_cases h : key y ≤ key x
      · simp [insertDescBy, h]
      · simp only [insertDescBy, if_neg h]
        exact (ih.cons y).trans (List.Perm.swap x y ys)

theorem sortDescBy_perm {α β : Type} [LinearOrder β] (key : α → β) (l : List α) :
    (sortDescBy key l).Perm l := by
  induction l with
  | nil => simp [sortDescBy]
  | cons x xs ih =>
      exact (insertDescBy_perm key x (sortDescBy key xs)).trans (ih.cons x)

theorem mem_sortDescBy {α β : Type} [LinearOrder β] (key : α → β) (l : List α) (a : α) :
    a ∈ sortDescBy key l ↔ a ∈ l :=
  (sortDescBy_perm key l).mem_iff

theorem insertDescBy_pairwise {α β : Type} [LinearOrder β] (key : α → β) (x : α)
    {l : List α} (hl : l.Pairwise (fun a b => key b ≤ key a)) :
    (insertDescBy key x l).Pairwise (fun a b => key b ≤ key a) := by
  induction l with
  | nil => simp [insertDescBy]
  | cons y ys ih =>
      have hy : ∀ z ∈ ys, key z ≤ key y := fun z hz => (List.pairwise_cons.mp hl).1 z hz
      by_cases h : key y ≤ key x
      · simp only [insertDescBy, if_pos h]
        refine List.pairwise_cons.mpr ⟨?_, hl⟩
        intro z hz
        rcases List.mem_cons.mp hz with rfl | hz'
        · exact h
        · exact (hy z hz').trans h
      · simp only [insertDescBy, if_neg h]
        refine List.pairwise_cons.mpr ⟨?_, ih (List.pairwise_cons.mp hl).2⟩
        intro z hz
        rcases List.mem_cons.mp ((insertDescBy_perm key x ys).mem_iff.mp hz) with rfl | hz'
        · exact le_of_not_le h
        · exact hy z hz'

theorem sortDescBy_pairwise {α β : Type} [LinearOrder β] (key : α → β) (l : List α) :
    (sortDescBy key l).Pairwise (fun a b => key b ≤ key a) := by
  induction l with
  | nil => simp [sortDescBy]
  | cons x xs ih => exact insertDescBy_pairwise key x ih

theorem insertDescBy_filter_level {α β : Type} [LinearOrder β] [DecidableEq β]
    (key : α → β) (x : α) (l : List α) (q : β) :
    (insertDescBy key x l).filter (fun a => key a = q) =
      (x :: l).filter (fun a => key a = q) := by
  induction l with
  | nil => simp [insertDescBy]
  | cons y ys ih =>
      by_cases h : key y ≤ key x
      · simp [insertDescBy, h]
      · have hlt : key x < key y := lt_of_not_le h
        by_cases hx : key x = q
        · have hy : ¬ key y = q := fun hh => absurd (hx.trans hh.symm) (ne_of_lt hlt)
          simp only [insertDescBy, if_neg h, List.filter_cons]
          simp only [List.filter_cons] at ih
          simp [hx, hy, ih]
        · simp only [insertDescBy, if_neg h, List.filter_cons]
          simp only [List.filter_cons] at ih
          by_cases hy : key y = q <;> simp [hx, hy, ih]

theorem sortDescBy_filter_level {α β : Type} [LinearOrder β] [DecidableEq β]
    (key : α → β) (l : List α) (q : β) :
    (sortDescBy key l).filter (fun a => key a = q) = l.filter (fun a => key a = q) := by
  induction l with
  | nil => simp [sortDescBy]
  | cons x xs ih =>
      calc (insertDescBy key x (sortDescBy key xs)).filter (fun a => key a = q)
          = (x :: sortDescBy key xs).filter (fun a => key a = q) :=
            insertDescBy_filter_level key x (sortDescBy key xs) q
        _ = (x :: xs).filter (fun a => key a = q) := by
            simp only [List.filter_cons]
            rw [ih]

/-! ## The browser learner module (`RchessLearner`, `src/unnamed/part_000`)

Boards are the 8×8 collaborator grid of the spec: each cell empty or a
`{color, pieceType}` object, both fields strings as in JavaScript.
`currentPlayer`, game results and move tokens are strings throughout,
matching the dynamically-typed source. -/

namespace Rchess

structure Piece where
  color : String
  pieceType : String
deriving DecidableEq

def Board : Type := Fin 8 → Fin 8 → Option Piece

/-- The `btoa` base64 alphabet. -/
def base64Alphabet : List Char :=
  "ABCDEFGHIJKLMNOPQRSTUVWXYZabcdefghijklmnopqrstuvwxyz0123456789+/".data

def sextetChar (n : Nat) : Char := base64Alphabet.getD n 'A'

/-- Byte-level base64 encoding, as performed by `btoa` on a string of
code points below 256 (all strings hashed here are ASCII). -/
def base64Encode : List Nat → List Char
  | [] => []
  | [b0] => [sextetChar (b0 / 4), sextetChar (b0 % 4 * 16), '=', '=']
  | [b0, b1] => [sextetChar (b0 / 4), sextetChar (b0 % 4 * 16 + b1 / 16),
      sextetChar (b1 % 16 * 4), '=']
  | b0 :: b1 :: b2 :: rest =>
      sextetChar (b0 / 4) :: sextetChar (b0 % 4 * 16 + b1 / 16) ::
      sextetChar (b1 % 16 * 4 + b2 / 64) :: sextetChar (b2 % 64) :: base64Encode rest

def btoa (s : String) : String := ⟨base64Encode (s.data.map Char.toNat)⟩

/-- `pieceToChar`: the piece-type letter map with `'?'` fallback. -/
def pieceToChar (t : String) : Char :=
  if t = "pawn" then 'p'
  else if t = "knight" then 'n'
  else if t = "bishop" then 'b'
  else if t = "rook" then 'r'
  else if t = "queen" then 'q'
  else if t = "king" then 'k'
  else '?'

/-- One rank of the placement string: run-length-encoded empties and
2-character `color+type` codes, as in `hashPosition`'s inner loop. -/
def hashRow (board : Board) (r : Fin 8) : String :=
  let step := fun (acc : String × Nat) (c : Fin 8) =>
    match board r c with
    | some piece =>
        ((if acc.2 > 0 then acc.1 ++ toString acc.2 else acc.1)
          ++ (if piece.color = "white" then "w" else "b").push (pieceToChar piece.pieceType), 0)
    | none => (acc.1, acc.2 + 1)
  let fin := (List.finRange 8).foldl step ("", 0)
  if fin.2 > 0 then fin.1 ++ toString fin.2 else fin.1

/-- The pre-hash placement string: ranks joined by `/`, then the
side-to-move letter.  (Marked irreducible so that unification never
tries to evaluate the 8×8 fold on a symbolic board; kernel reduction on
concrete boards is unaffected.) -/
@[irreducible] def hashInput (board : Board) (currentPlayer : String) : String :=
  String.intercalate "/" ((List.finRange 8).map (hashRow board))
    ++ (if currentPlayer = "white" then "w" else "b")

/-- The `.slice(0, 8).replace(/[+\x2f=]/g, '')` step of `hashPosition`:
first 8 characters, then the non-alphanumeric base64 characters `+ / =`
stripped. -/
def stripKey (s : String) : List Char :=
  (s.data.take 8).filter (fun c => ¬ (c = '+' ∨ c = '/' ∨ c = '='))

/-- `hashPosition`: the stripped 8-character prefix of `btoa(str)`. -/
def hashPosition (board : Board) (currentPlayer : String) : String :=
  ⟨stripKey (btoa (hashInput board currentPlayer))⟩

/-- `boardToFEN`.  The source reads `piece.type`, a field the board
collaborator does not have (it has `pieceType`), so JavaScript appends
the string rendering of `undefined` for every piece. -/
def fenRow (board : Board) (r : Fin 8) : String :=
  let step := fun (acc : String × Nat) (c : Fin 8) =>
    match board r c with
    | some _ =>
        ((if acc.2 > 0 then acc.1 ++ toString acc.2 else acc.1) ++ "undefined", 0)
    | none => (acc.1, acc.2 + 1)
  let fin := (List.finRange 8).foldl step ("", 0)
  if fin.2 > 0 then fin.1 ++ toString fin.2 else fin.1

def boardToFEN (board : Board) (currentPlayer : String) : String :=
  String.intercalate "/" ((List.finRange 8).map (fenRow board))
    ++ (if currentPlayer = "white" then " w" else " b")

def pieceIs (color pieceType : String) : Option Piece → Bool
  | some p => p.pieceType = pieceType && p.color = color
  | none => false

/-- `isKingSafe` reduces to the presence of that side's king: the attack
check is a stub returning `true` when a king was located. -/
def isKingSafe (board : Board) (color : String) : Bool :=
  (List.finRange 8).any fun r => (List.finRange 8).any fun c =>
    pieceIs color "king" (board r c)

/-- `controlsCenter` is a stub that returns `true` unconditionally. -/
def controlsCenter (_board : Board) (_color : String) : Bool := true

def countPieces (board : Board) (color pieceType : String) : Nat :=
  ((List.finRange 8).map fun r =>
    ((List.finRange 8).map fun c => board r c).countP (pieceIs color pieceType)).sum

def hasBishopPair (board : Board) (color : String) : Bool :=
  2 ≤ countPieces board color "bishop"

/-- `hasDoubledPawns`: some file holds at least two of that side's pawns. -/
def hasDoubledPawns (board : Board) (color : String) : Bool :=
  (List.finRange 8).any fun c =>
    1 < ((List.finRange 8).map fun r => board r c).countP (pieceIs color "pawn")

def detectPatterns (board : Board) (_currentPlayer : String) : List String :=
  (if isKingSafe board "white" then ["white_king_safe"] else [])
  ++ (if isKingSafe board "black" then ["black_king_safe"] else [])
  ++ (if controlsCenter board "white" then ["white_center"] else [])
  ++ (if controlsCenter board "black" then ["black_center"] else [])
  ++ (if hasBishopPair board "white" then ["white_bishop_pair"] else [])
  ++ (if hasBishopPair board "black" then ["black_bishop_pair"] else [])
  ++ (if hasDoubledPawns board "white" then ["white_doubled_pawns"] else [])
  ++ (if hasDoubledPawns board "black" then ["black_doubled_pawns"] else [])

end Rchess

namespace Rchess

structure Outcomes where
  white : Nat
  black : Nat
  draw : Nat
deriving DecidableEq

structure MoveStats where
  played : Nat
  wins : Nat
  losses : Nat
  draws : Nat
deriving DecidableEq

structure PositionRecord where
  hash : String
  fen : String
  firstSeen : String
  lastSeen : String
  totalGames : Nat
  outcomes : Outcomes
  moves : List (String × MoveStats)
  patterns : List String
  popularity : Nat
deriving DecidableEq

structure GamePos where
  hash : String
  move : Option String
  player : String
  timestamp : Nat
deriving DecidableEq

structure Players where
  white : String
  black : String
deriving DecidableEq

structure Game where
  id : String
  startTime : String
  endTime : Option String
  positions : List GamePos
  moves : List String
  result : Option String
  players : Players
deriving DecidableEq

structure Metadata where
  version : String
  lastUpdated : String
  totalGames : Nat
deriving DecidableEq

structure DB where
  positions : List (String × PositionRecord)
  games : List Game
  metadata : Metadata
deriving DecidableEq

structure LearnerState where
  db : DB
  currentGame : Option Game
deriving DecidableEq

/-- The default empty database built when nothing is persisted. -/
def emptyDB (now : String) : DB :=
  { positions := [], games := [],
    metadata := { version := "1.0", lastUpdated := now, totalGames := 0 } }

def initialState (now : String) : LearnerState :=
  { db := emptyDB now, currentGame := none }

/-- `startGame`: allocates a fresh in-progress game record. The id and
timestamp come from the environment (`Date.now()`, `Math.random()`). -/
def freshGame (id now : String) : Game :=
  { id := id, startTime := now, endTime := none, positions := [], moves := [],
    result := none, players := { white := "human", black := "computer" } }

def startGame (st : LearnerState) (id now : String) : LearnerState :=
  { st with currentGame := some (freshGame id now) }

/-- JavaScript string truthiness for the optional move argument: `null`
and the empty string are falsy. -/
def moveTruthy : Option String → Bool
  | none => false
  | some m => !m.isEmpty

/-- `updatePositionStats`: creates the record on first sight (zero
counters, patterns tagged once), then advances `lastSeen` and bumps
`popularity` on every visit. -/
def newPositionRecord (hash : String) (board : Board) (currentPlayer now : String) :
    PositionRecord :=
  { hash := hash, fen := boardToFEN board currentPlayer, firstSeen := now,
    lastSeen := now, totalGames := 0, outcomes := { white := 0, black := 0, draw := 0 },
    moves := [], patterns := detectPatterns board currentPlayer, popularity := 0 }

def touchRecord (now : String) (r : PositionRecord) : PositionRecord :=
  { r with lastSeen := now, popularity := r.popularity + 1 }

def updatePositionStats (db : DB) (hash : String) (board : Board)
    (currentPlayer now : String) : DB :=
  match lookupA db.positions hash with
  | some r => { db with positions := setA db.positions hash (touchRecord now r) }
  | none =>
      { db with positions :=
          db.positions ++ [(hash, touchRecord now (newPositionRecord hash board currentPlayer now))] }

/-- `recordPosition`: auto-starts a game when none is in progress,
appends the ply to the in-progress game, appends a truthy move to the
move list, and updates the position statistics immediately. -/
def recordPosition (st : LearnerState) (board : Board) (currentPlayer : String)
    (move : Option String) (id now : String) (ts : Nat) : LearnerState :=
  let st := match st.currentGame with
    | none => startGame st id now
    | some _ => st
  match st.currentGame with
  | none => st
  | some g =>
      let hash := hashPosition board currentPlayer
      let g := { g with
        positions := g.positions ++ [{ hash := hash, move := move, player := currentPlayer, timestamp := ts }],
        moves := match move with
          | some m => if m.isEmpty then g.moves else g.moves ++ [m]
          | none => g.moves }
      { st with
        currentGame := some g,
        db := updatePositionStats st.db hash board currentPlayer now }

/-- The outcome-bucket update in `updateGamePositions`: the matching
bucket is incremented only for the three recognised result strings. -/
def bumpOutcomes (result : String) (o : Outcomes) : Outcomes :=
  if result = "white" then { o with white := o.white + 1 }
  else if result = "black" then { o with black := o.black + 1 }
  else if result = "draw" then { o with draw := o.draw + 1 }
  else o

def bumpMoveStats (result player : String) (ms : MoveStats) : MoveStats :=
  let ms := { ms with played := ms.played + 1 }
  if result = player then { ms with wins := ms.wins + 1 }
  else if result = "draw" then { ms with draws := ms.draws + 1 }
  else { ms with losses := ms.losses + 1 }

/-- The move-statistics update in `updateGamePositions`: it fires only
when the ply carries a truthy move AND the record already has an entry
for that move (`pos.move && position.moves[pos.move]`); the inner
`if (!moveStats)` initialisation in the source is unreachable because
the guard already required the entry to be truthy. -/
def applyMoveStats (result : String) (p : GamePos)
    (moves : List (String × MoveStats)) : List (String × MoveStats) :=
  match p.move with
  | none => moves
  | some m =>
      if m.isEmpty then moves
      else
        match lookupA moves m with
        | none => moves
        | some ms => setA moves m (bumpMoveStats result p.player ms)

def applyOutcome (result : String) (p : GamePos) (r : PositionRecord) : PositionRecord :=
  { r with outcomes := bumpOutcomes result r.outcomes,
           totalGames := r.totalGames + 1,
           moves := applyMoveStats result p r.moves }

/-- The body of `updateGamePositions`: walk the game's ply list with a
seen-set so each distinct hash is folded at most once; plies whose hash
has no record are skipped. -/
def foldPositions (result : String) :
    List GamePos → List String → List (String × PositionRecord) → List (String × PositionRecord)
  | [], _, positions => positions
  | p :: rest, seen, positions =>
      if p.hash ∈ seen then foldPositions result rest seen positions
      else
        match lookupA positions p.hash with
        | none => foldPositions result rest (p.hash :: seen) positions
        | some r =>
            foldPositions result rest (p.hash :: seen)
              (setA positions p.hash (applyOutcome result p r))

def updateGamePositions (db : DB) (game : Game) (result : String) : DB :=
  { db with positions := foldPositions result game.positions [] db.positions }

/-- `endGame`: a no-op without an in-progress game; otherwise stamps the
result, appends the game, bumps the global counter, folds the game into
the store, saves (refreshing `metadata.lastUpdated`) and clears the
session. -/
def endGame (st : LearnerState) (result : String) (now : String) : LearnerState :=
  match st.currentGame with
  | none => st
  | some g =>
      let g := { g with result := some result, endTime := some now }
      let db := { st.db with
        games := st.db.games ++ [g],
        metadata := { st.db.metadata with totalGames := st.db.metadata.totalGames + 1 } }
      let db := updateGamePositions db g result
      let db := { db with metadata := { db.metadata with lastUpdated := now } }
      { db := db, currentGame := none }

/-- `reset`: replaces the database with the empty default (and saves);
the in-progress game reference is not touched by the source. -/
def reset (st : LearnerState) (now : String) : LearnerState :=
  { db := emptyDB now, currentGame := st.currentGame }

end Rchess

namespace Rchess

/-- An entry of `findInconsistencies`' report. -/
structure Inconsistency where
  hash : String
  fen : String
  expected : ℚ
  actual : ℚ
  games : Nat
  patterns : List String
  deviation : ℚ
deriving DecidableEq

/-- `findInconsistencies`: scan all positions, skip those with fewer
than 5 games, compare the white share against the fixed 0.5 baseline,
report when the absolute deviation exceeds the threshold, and sort by
descending absolute deviation.  JavaScript float arithmetic on these
ratios is modelled by exact rationals. -/
def findInconsistencies (db : DB) (threshold : ℚ) : List Inconsistency :=
  sortDescBy (fun e => |e.deviation|)
    (db.positions.filterMap fun p =>
      if p.2.totalGames < 5 then none
      else if threshold < |(p.2.outcomes.white : ℚ) / (p.2.totalGames : ℚ) - 1/2| then
        some { hash := p.1, fen := p.2.fen, expected := 1/2,
               actual := (p.2.outcomes.white : ℚ) / (p.2.totalGames : ℚ),
               games := p.2.totalGames, patterns := p.2.patterns,
               deviation := (p.2.outcomes.white : ℚ) / (p.2.totalGames : ℚ) - 1/2 }
      else none)

structure Suggestion where
  move : String
  winRate : ℚ
  played : Nat
  stats : MoveStats
deriving DecidableEq

/-- `getMoveSuggestions`: win-rate per recorded move (losses-rate when
asked for black), sorted descending by win-rate alone. -/
def getMoveSuggestions (db : DB) (hash : String) (color : Option String) :
    List Suggestion :=
  match lookupA db.positions hash with
  | none => []
  | some pos =>
      sortDescBy (fun s => s.winRate)
        (pos.moves.map fun p =>
          { move := p.1,
            winRate := if color = some "black" then (p.2.losses : ℚ) / (p.2.played : ℚ)
              else (p.2.wins : ℚ) / (p.2.played : ℚ),
            played := p.2.played, stats := p.2 })

structure OpeningEntry where
  moves : List String
  games : Nat
  wins : Nat
  losses : Nat
  draws : Nat
deriving DecidableEq

/-- The grouping key of `getOpeningTree`: the first `depth` moves joined
by the literal delimiter found in the source. -/
def openingKey (depth : Nat) (g : Game) : String :=
  String.intercalate " â†’ " (g.moves.take depth)

def tallyGame (g : Game) (e : OpeningEntry) : OpeningEntry :=
  let e := { e with games := e.games + 1 }
  if g.result = some "white" then { e with wins := e.wins + 1 }
  else if g.result = some "black" then { e with losses := e.losses + 1 }
  else { e with draws := e.draws + 1 }

/-- The accumulation loop of `getOpeningTree` over the games list. -/
def openingsAux (depth : Nat) :
    List Game → List (String × OpeningEntry) → List (String × OpeningEntry)
  | [], acc => acc
  | g :: gs, acc =>
      if g.moves.length < depth then openingsAux depth gs acc
      else
        let key := openingKey depth g
        let e := match lookupA acc key with
          | some e => e
          | none => { moves := g.moves.take depth, games := 0, wins := 0,
                      losses := 0, draws := 0 }
        openingsAux depth gs (setA acc key (tallyGame g e))

def openings (db : DB) (depth : Nat) : List (String × OpeningEntry) :=
  openingsAux depth db.games []

/-- `getOpeningTree`: group, sort the entry values by descending game
count, keep at most 20. -/
def getOpeningTree (db : DB) (depth : Nat) : List OpeningEntry :=
  (sortDescBy (fun e => e.games) ((openings db depth).map Prod.snd)).take 20

/-- States reachable from a fresh learner by the session operations.
`P` constrains the result strings passed to `endGame`; environment
inputs (timestamps, game ids) are arbitrary. -/
inductive ReachableP (P : String → Prop) : LearnerState → Prop where
  | init (now : String) : ReachableP P (initialState now)
  | start {st : LearnerState} (id now : String) :
      ReachableP P st → ReachableP P (startGame st id now)
  | record {st : LearnerState} (board : Board) (currentPlayer : String)
      (move : Option String) (id now : String) (ts : Nat) :
      ReachableP P st → ReachableP P (recordPosition st board currentPlayer move id now ts)
  | finish {st : LearnerState} (result now : String) :
      ReachableP P st → P result → ReachableP P (endGame st result now)
  | clear {st : LearnerState} (now : String) :
      ReachableP P st → ReachableP P (reset st now)

end Rchess

namespace Rchess

/-- The three recognised completed-game results. -/
def resultWBD (r : String) : Prop := r = "white" ∨ r = "black" ∨ r = "draw"

/-- The per-record outcome-sum invariant of the spec. -/
def RecordOK (r : PositionRecord) : Prop :=
  r.outcomes.white + r.outcomes.black + r.outcomes.draw = r.totalGames

/-- The invariant lifted to the whole position map. -/
def StoreOK (ps : List (String × PositionRecord)) : Prop :=
  ∀ k r, lookupA ps k = some r → RecordOK r

/-- The claim's statement: outcome tallies sum to `totalGames` for every
stored position with at least one folded game. -/
def SumInvariant (db : DB) : Prop :=
  ∀ k r, lookupA db.positions k = some r → 0 < r.totalGames →
    r.outcomes.white + r.outcomes.black + r.outcomes.draw = r.totalGames

theorem recordOK_touch (now : String) (r : PositionRecord) (h : RecordOK r) :
    RecordOK (touchRecord now r) := h

theorem recordOK_new (hash : String) (board : Board) (p now : String) :
    RecordOK (newPositionRecord hash board p now) := rfl

theorem applyOutcome_recordOK {result : String} (hres : resultWBD result)
    (p : GamePos) (r : PositionRecord) (h : RecordOK r) :
    RecordOK (applyOutcome result p r) := by
  rcases hres with rfl | rfl | rfl <;>
    simp [RecordOK, applyOutcome, bumpOutcomes] at h ⊢ <;> omega

theorem storeOK_setA {ps : List (String × PositionRecord)} {k : String}
    {v : PositionRecord} (h : StoreOK ps) (hv : RecordOK v) : StoreOK (setA ps k v) := by
  intro k' r' hl
  rw [lookupA_setA] at hl
  by_cases hk : k = k'
  · rw [if_pos hk] at hl
    cases hl
    exact hv
  · rw [if_neg hk] at hl
    exact h k' r' hl

theorem foldPositions_storeOK {result : String} (hres : resultWBD result) :
    ∀ (l : List GamePos) (seen : List String) (ps : List (String × PositionRecord)),
      StoreOK ps → StoreOK (foldPositions result l seen ps) := by
  intro l
  induction l with
  | nil => intro seen ps h; exact h
  | cons p rest ih =>
      intro seen ps h
      by_cases hmem : p.hash ∈ seen
      · simpa [foldPositions, hmem] using ih seen ps h
      · rcases hl : lookupA ps p.hash with _ | r
        · simpa [foldPositions, hmem, hl] using ih _ ps h
        · have hr : RecordOK r := h _ _ hl
          simpa [foldPositions, hmem, hl] using
            ih _ _ (storeOK_setA h (applyOutcome_recordOK hres p r hr))

theorem storeOK_updatePositionStats {db : DB} (hash : String) (board : Board)
    (player now : String) (h : StoreOK db.positions) :
    StoreOK (updatePositionStats db hash board player now).positions := by
  unfold updatePositionStats
  rcases hl : lookupA db.positions hash with _ | r
  · intro k r' hl'
    simp only at hl'
    rw [lookupA_append] at hl'
    rcases hl2 : lookupA db.positions k with _ | r2
    · rw [hl2] at hl'
      simp only [lookupA] at hl'
      by_cases hk : hash = k
      · rw [if_pos hk] at hl'
        cases hl'
        exact recordOK_touch now _ (recordOK_new hash board player now)
      · rw [if_neg hk] at hl'
        cases hl'
    · rw [hl2] at hl'
      cases hl'
      exact h k _ hl2
  · exact storeOK_setA h (recordOK_touch now r (h hash r hl))

theorem recordPosition_db (st : LearnerState) (board : Board) (player : String)
    (move : Option String) (id now : String) (ts : Nat) :
    (recordPosition st board player move id now ts).db =
      updatePositionStats st.db (hashPosition board player) board player now := by
  rcases hc : st.currentGame with _ | g <;>
    simp [recordPosition, startGame, hc]

theorem endGame_db_positions (st : LearnerState) (result now : String) :
    (endGame st result now).db.positions =
      match st.currentGame with
      | none => st.db.positions
      | some g => foldPositions result g.positions [] st.db.positions := by
  rcases hc : st.currentGame with _ | g <;>
    simp [endGame, updateGamePositions, hc]

theorem reachable_storeOK {st : LearnerState}
    (h : ReachableP resultWBD st) : StoreOK st.db.positions := by
  induction h with
  | init now =>
      intro k r hl
      simp [initialState, emptyDB, lookupA] at hl
  | start id now _ ih => exact ih
  | record board player move id now ts _ ih =>
      rw [recordPosition_db]
      exact storeOK_updatePositionStats _ board player now ih
  | finish result now hst hres ih =>
      rename_i st'
      rw [endGame_db_positions]
      rcases st'.currentGame with _ | g
      · exact ih
      · exact foldPositions_storeOK hres g.positions [] _ ih
  | clear now _ ih =>
      intro k r hl
      simp [reset, emptyDB, lookupA] at hl

end Rchess

namespace Rchess

/-- Read a position's `totalGames`, zero when the hash is unknown. -/
def totalGamesOf (db : DB) (k : String) : Nat :=
  match lookupA db.positions k with
  | some r => r.totalGames
  | none => 0

/-- Read a position's `popularity`, zero when the hash is unknown. -/
def popularityOf (db : DB) (k : String) : Nat :=
  match lookupA db.positions k with
  | some r => r.popularity
  | none => 0

end Rchess

/-- C1: for every position record with `totalGames > 0`, after any
sequence of session operations whose completed-game folds all carry a
result in {white, black, draw}, the outcome buckets sum to
`totalGames`.  (The invariant in fact holds with no positivity
hypothesis, via `Rchess.reachable_storeOK`.) -/
theorem c1_outcome_sum_invariant {st : Rchess.LearnerState}
    (h : Rchess.ReachableP Rchess.resultWBD st) : Rchess.SumInvariant st.db :=
  fun k r hl _ => Rchess.reachable_storeOK h k r hl

def c1Board : Rchess.Board := fun _ _ => none

def c1State : Rchess.LearnerState :=
  Rchess.endGame
    (Rchess.recordPosition (Rchess.initialState "t0") c1Board "white" none "g1" "t1" 0)
    "white" "t2"

/-- Witness for C1: a concrete reachable state holding a record with
`totalGames = 1`, on which the invariant theorem is instantiated. -/
theorem c1_outcome_sum_invariant_witness :
    Rchess.ReachableP Rchess.resultWBD c1State ∧ Rchess.SumInvariant c1State.db ∧
      Rchess.totalGamesOf c1State.db (Rchess.hashPosition c1Board "white") = 1 :=
  ⟨Rchess.ReachableP.finish "white" "t2"
      (Rchess.ReachableP.record c1Board "white" none "g1" "t1" 0
        (Rchess.ReachableP.init "t0")) (Or.inl rfl),
   c1_outcome_sum_invariant
     (Rchess.ReachableP.finish "white" "t2"
       (Rchess.ReachableP.record c1Board "white" none "g1" "t1" 0
         (Rchess.ReachableP.init "t0")) (Or.inl rfl)),
   by with_unfolding_all decide⟩

namespace Rchess

theorem ind_le_of_imp {P Q : Prop} [Decidable P] [Decidable Q] (h : P → Q) :
    (if P then (1 : Nat) else 0) ≤ if Q then 1 else 0 := by
  by_cases hp : P
  · simp [hp, h hp]
  · simp [hp]

def gameHashes : Option Game → List String
  | none => []
  | some g => g.positions.map GamePos.hash

/-- Contribution of the in-progress game to the popularity bound: each
hash already recorded in the current game will add at most one more
`totalGames` increment when the game ends. -/
def curBonus (cg : Option Game) (k : String) : Nat :=
  if k ∈ gameHashes cg then 1 else 0

/-- Inductive invariant: `popularity` dominates `totalGames` plus the
pending contribution of the in-progress game. -/
def PopInv (st : LearnerState) : Prop :=
  ∀ k r, lookupA st.db.positions k = some r →
    r.totalGames + curBonus st.currentGame k ≤ r.popularity

theorem applyOutcome_totalGames (result : String) (p : GamePos) (r : PositionRecord) :
    (applyOutcome result p r).totalGames = r.totalGames + 1 := rfl

theorem applyOutcome_popularity (result : String) (p : GamePos) (r : PositionRecord) :
    (applyOutcome result p r).popularity = r.popularity := rfl

theorem foldPositions_pop (result : String) :
    ∀ (l : List GamePos) (seen : List String) (ps : List (String × PositionRecord)),
      (∀ k r, lookupA ps k = some r →
        r.totalGames + (if k ∉ seen ∧ k ∈ l.map GamePos.hash then 1 else 0) ≤ r.popularity) →
      ∀ k r, lookupA (foldPositions result l seen ps) k = some r →
        r.totalGames ≤ r.popularity := by
  intro l
  induction l with
  | nil =>
      intro seen ps h k r hl
      have := h k r (by simpa [foldPositions] using hl)
      simpa using this
  | cons p rest ih =>
      intro seen ps h k r hl
      by_cases hmem : p.hash ∈ seen
      · refine ih seen ps ?_ k r (by simpa [foldPositions, hmem] using hl)
        intro k' r' hl'
        refine le_trans (Nat.add_le_add_left (ind_le_of_imp ?_) _) (h k' r' hl')
        exact fun hc => ⟨hc.1, by simp [hc.2]⟩
      · rcases hlk : lookupA ps p.hash with _ | r0
        · refine ih (p.hash :: seen) ps ?_ k r
            (by simpa [foldPositions, hmem, hlk] using hl)
          intro k' r' hl'
          refine le_trans (Nat.add_le_add_left (ind_le_of_imp ?_) _) (h k' r' hl')
          intro hc
          have hns : k' ∉ seen := fun hs => hc.1 (List.mem_cons_of_mem _ hs)
          exact ⟨hns, by simp [hc.2]⟩
        · refine ih (p.hash :: seen) (setA ps p.hash (applyOutcome result p r0)) ?_ k r
            (by simpa [foldPositions, hmem, hlk] using hl)
          intro k' r' hl'
          rw [lookupA_setA] at hl'
          by_cases hk : p.hash = k'
          · rw [if_pos hk] at hl'
            cases hl'
            have hb := h p.hash r0 hlk
            have hbon : (if p.hash ∉ seen ∧ p.hash ∈ (p :: rest).map GamePos.hash
                then (1 : Nat) else 0) = 1 := by
              simp [hmem]
            rw [hbon] at hb
            have hnot : ¬ (p.hash ∉ p.hash :: seen ∧ p.hash ∈ rest.map GamePos.hash) := by
              intro hc
              exact hc.1 (List.mem_cons_self _ _)
            subst hk
            simp only [applyOutcome_totalGames, applyOutcome_popularity, hnot, if_neg,
              not_false_iff, add_zero]
            omega
          · rw [if_neg hk] at hl'
            refine le_trans (Nat.add_le_add_left (ind_le_of_imp ?_) _) (h k' r' hl')
            intro hc
            have hns : k' ∉ seen := fun hs => hc.1 (List.mem_cons_of_mem _ hs)
            exact ⟨hns, by simp [hc.2]⟩

theorem updatePositionStats_lookup_ne {db : DB} {h0 : String} (board : Board)
    (player now : String) {k : String} (hk : h0 ≠ k) :
    lookupA (updatePositionStats db h0 board player now).positions k =
      lookupA db.positions k := by
  unfold updatePositionStats
  rcases hl : lookupA db.positions h0 with _ | r
  · simp only
    rw [lookupA_append]
    rcases hl2 : lookupA db.positions k with _ | r2
    · simp [lookupA, hk]
    · simp
  · simp only
    rw [lookupA_setA, if_neg hk]

theorem updatePositionStats_lookup_self {db : DB} (h0 : String) (board : Board)
    (player now : String) :
    lookupA (updatePositionStats db h0 board player now).positions h0 =
      some (touchRecord now
        ((lookupA db.positions h0).getD (newPositionRecord h0 board player now))) := by
  unfold updatePositionStats
  rcases hl : lookupA db.positions h0 with _ | r
  · simp only
    rw [lookupA_append, hl]
    simp [lookupA]
  · simp only
    rw [lookupA_setA, if_pos rfl]
    simp

theorem recordPosition_gameHashes (st : LearnerState) (board : Board) (player : String)
    (move : Option String) (id now : String) (ts : Nat) :
    gameHashes (recordPosition st board player move id now ts).currentGame =
      gameHashes st.currentGame ++ [hashPosition board player] := by
  rcases hc : st.currentGame with _ | g <;>
    simp [recordPosition, startGame, freshGame, gameHashes, hc]

theorem reachable_popInv {P : String → Prop} {st : LearnerState}
    (h : ReachableP P st) : PopInv st := by
  induction h with
  | init now =>
      intro k r hl
      simp [initialState, emptyDB, lookupA] at hl
  | start id now _ ih =>
      intro k r hl
      have := ih k r hl
      have hb : curBonus (some (freshGame id now)) k = 0 := by
        simp [curBonus, gameHashes, freshGame]
      simp only [startGame] at hl ⊢
      rw [hb]
      omega
  | record board player move id now ts _ ih =>
      rename_i st' _
      intro k r hl
      rw [show (recordPosition st' board player move id now ts).db =
          updatePositionStats st'.db (hashPosition board player) board player now from
          recordPosition_db ..] at hl
      have hbon : curBonus (recordPosition st' board player move id now ts).currentGame k ≤
          curBonus st'.currentGame k + (if k = hashPosition board player then 1 else 0) := by
        unfold curBonus
        rw [recordPosition_gameHashes]
        by_cases hk : k = hashPosition board player
        · by_cases hmem : k ∈ gameHashes st'.currentGame <;> simp [hk, hmem]
        · by_cases hmem : k ∈ gameHashes st'.currentGame <;> simp [hk, hmem]
      by_cases hk : hashPosition board player = k
      · rw [← hk] at hl ⊢
        rw [updatePositionStats_lookup_self] at hl
        cases hl
        rcases hl0 : lookupA st'.db.positions (hashPosition board player) with _ | r0
        · have : curBonus (recordPosition st' board player move id now ts).currentGame
              (hashPosition board player) ≤ 1 := by
            unfold curBonus
            split <;> omega
          simp only [hl0, Option.getD_none, touchRecord, newPositionRecord] at *
          omega
        · have h0 := ih _ r0 hl0
          have h1 : curBonus (recordPosition st' board player move id now ts).currentGame
              (hashPosition board player) ≤ 1 := by
            unfold curBonus
            split <;> omega
          simp only [hl0, Option.getD_some, touchRecord] at *
          omega
      · rw [updatePositionStats_lookup_ne board player now hk] at hl
        have h0 := ih k r hl
        have hne : ¬ k = hashPosition board player := fun he => hk he.symm
        rw [if_neg hne] at hbon
        omega
  | finish result now _ _ ih =>
      rename_i st' _ _
      intro k r hl
      rcases hc : st'.currentGame with _ | g
      · have hst : endGame st' result now = st' := by
          simp [endGame, hc]
        rw [hst] at hl ⊢
        have := ih k r hl
        omega
      · have hpos : (endGame st' result now).db.positions =
            foldPositions result g.positions [] st'.db.positions := by
          rw [endGame_db_positions, hc]
        rw [hpos] at hl
        have hcb : curBonus (endGame st' result now).currentGame k = 0 := by
          simp [endGame, hc, curBonus, gameHashes]
        rw [hcb]
        refine Nat.le_trans (by omega) (foldPositions_pop result g.positions [] _ ?_ k r hl)
        intro k' r' hl'
        have := ih k' r' hl'
        rw [hc] at this
        unfold curBonus gameHashes at this
        simpa using this
  | clear now _ ih =>
      intro k r hl
      simp [reset, emptyDB, lookupA] at hl

end Rchess

namespace Rchess

/-- The claim's statement: popularity dominates `totalGames` on every
stored position record. -/
def PopularityGE (db : DB) : Prop :=
  ∀ k r, lookupA db.positions k = some r → r.totalGames ≤ r.popularity

end Rchess

/-- C4: `popularity >= totalGames` holds for every position record after
any sequence of session operations (`recordPosition` / `endGame` with
arbitrary result strings / `reset`): popularity is bumped on every
recording while `totalGames` is bumped at most once per completed
game. -/
theorem c4_popularity_ge_totalGames {P : String → Prop} {st : Rchess.LearnerState}
    (h : Rchess.ReachableP P st) : Rchess.PopularityGE st.db :=
  fun k r hl => Nat.le_trans (Nat.le_add_right _ _) (Rchess.reachable_popInv h k r hl)

def c4State : Rchess.LearnerState :=
  Rchess.endGame
    (Rchess.recordPosition
      (Rchess.recordPosition (Rchess.initialState "t0") c1Board "white" none "g1" "t1" 0)
      c1Board "white" none "g1" "t2" 1)
    "white" "t3"

/-- Witness for C4: a concrete reachable state in which one position was
recorded twice within a single game (popularity 2, totalGames 1). -/
theorem c4_popularity_ge_totalGames_witness :
    Rchess.ReachableP (fun _ => True) c4State ∧ Rchess.PopularityGE c4State.db ∧
      Rchess.popularityOf c4State.db (Rchess.hashPosition c1Board "white") = 2 ∧
      Rchess.totalGamesOf c4State.db (Rchess.hashPosition c1Board "white") = 1 := by
  have hr : Rchess.ReachableP (fun _ => True) c4State :=
    Rchess.ReachableP.finish "white" "t3"
      (Rchess.ReachableP.record c1Board "white" none "g1" "t2" 1
        (Rchess.ReachableP.record c1Board "white" none "g1" "t1" 0
          (Rchess.ReachableP.init "t0"))) trivial
  exact ⟨hr, c4_popularity_ge_totalGames hr, by with_unfolding_all decide,
    by with_unfolding_all decide⟩

namespace Rchess

theorem recordPosition_positions_of_none (st : LearnerState) (board : Board)
    (player : String) (move : Option String) (id now : String) (ts : Nat)
    (h : st.currentGame = none) :
    ∃ g, (recordPosition st board player move id now ts).currentGame = some g ∧
      g.positions = [{ hash := hashPosition board player, move := move,
                       player := player, timestamp := ts }] := by
  simp only [recordPosition, startGame, freshGame, h]
  exact ⟨_, rfl, by simp⟩

theorem recordPosition_positions_of_some (st : LearnerState) (board : Board)
    (player : String) (move : Option String) (id now : String) (ts : Nat)
    (g0 : Game) (h : st.currentGame = some g0) :
    ∃ g, (recordPosition st board player move id now ts).currentGame = some g ∧
      g.positions = g0.positions ++ [{ hash := hashPosition board player, move := move,
                                       player := player, timestamp := ts }] := by
  simp only [recordPosition, h]
  exact ⟨_, rfl, by simp⟩

theorem totalGamesOf_updatePositionStats (db : DB) (h0 : String) (board : Board)
    (player now k : String) :
    totalGamesOf (updatePositionStats db h0 board player now) k = totalGamesOf db k := by
  by_cases hk : h0 = k
  · subst hk
    unfold totalGamesOf
    rw [updatePositionStats_lookup_self]
    rcases hl : lookupA db.positions h0 with _ | r <;>
      simp [touchRecord, newPositionRecord, hl]
  · unfold totalGamesOf
    rw [updatePositionStats_lookup_ne board player now hk]

end Rchess

open Rchess

namespace Rchess

theorem foldPositions_pair_same (result : String) (e1 e2 : GamePos)
    (ps : List (String × PositionRecord)) (r : PositionRecord)
    (hh : e2.hash = e1.hash) (hl : lookupA ps e1.hash = some r) :
    foldPositions result [e1, e2] [] ps = setA ps e1.hash (applyOutcome result e1 r) := by
  simp [foldPositions, hl, hh]

end Rchess

/-- C3: recording the same position (same canonical hash) twice within
one game and then ending that game with result `white` increments that
position's `totalGames` by exactly 1, not 2: the fold dedups hashes per
game, first occurrence wins. -/
theorem c3_dedup_per_game (st : LearnerState) (board : Board) (player : String)
    (m1 m2 : Option String) (id1 now1 id2 now2 nowEnd : String) (ts1 ts2 : Nat)
    (h : st.currentGame = none) :
    totalGamesOf
      (endGame (recordPosition (recordPosition st board player m1 id1 now1 ts1)
        board player m2 id2 now2 ts2) "white" nowEnd).db (hashPosition board player)
    = totalGamesOf st.db (hashPosition board player) + 1 := by
  obtain ⟨g1, hg1, hp1⟩ := recordPosition_positions_of_none st board player m1 id1 now1 ts1 h
  obtain ⟨g2, hg2, hp2⟩ :=
    recordPosition_positions_of_some (recordPosition st board player m1 id1 now1 ts1)
      board player m2 id2 now2 ts2 g1 hg1
  set st1 := recordPosition st board player m1 id1 now1 ts1 with hst1
  set st2 := recordPosition st1 board player m2 id2 now2 ts2 with hst2
  set h0 := hashPosition board player with hh0
  have hdb2 : st2.db = updatePositionStats st1.db h0 board player now2 :=
    recordPosition_db ..
  have hself : lookupA st2.db.positions h0 =
      some (touchRecord now2 ((lookupA st1.db.positions h0).getD
        (newPositionRecord h0 board player now2))) := by
    rw [hdb2]
    exact updatePositionStats_lookup_self ..
  have htg2 : (touchRecord now2 ((lookupA st1.db.positions h0).getD
      (newPositionRecord h0 board player now2))).totalGames = totalGamesOf st.db h0 := by
    have e2' : totalGamesOf st2.db h0 = totalGamesOf st.db h0 := by
      rw [hdb2, totalGamesOf_updatePositionStats, hst1, recordPosition_db,
        totalGamesOf_updatePositionStats]
    rw [← e2']
    unfold totalGamesOf
    rw [hself]
  have hpos : (endGame st2 "white" nowEnd).db.positions =
      foldPositions "white" g2.positions [] st2.db.positions := by
    rw [endGame_db_positions, hg2]
  have hfold := foldPositions_pair_same "white"
    { hash := h0, move := m1, player := player, timestamp := ts1 }
    { hash := h0, move := m2, player := player, timestamp := ts2 }
    st2.db.positions _ rfl hself
  unfold totalGamesOf
  rw [hpos, hp2, hp1]
  simp only [List.cons_append, List.nil_append]
  rw [hfold, lookupA_setA, if_pos rfl]
  simp only [applyOutcome_totalGames]
  rw [htg2]
  rfl

/-- Witness for C3: the scenario run concretely from a fresh learner on
the empty board; the position's `totalGames` goes from 0 to 1. -/
theorem c3_dedup_per_game_witness :
    (initialState "t0").currentGame = none ∧
      totalGamesOf
        (endGame (recordPosition (recordPosition (initialState "t0") c1Board "white" none "g1" "t1" 0)
          c1Board "white" none "g1" "t2" 1) "white" "t3").db (hashPosition c1Board "white")
      = totalGamesOf (initialState "t0").db (hashPosition c1Board "white") + 1 ∧
      totalGamesOf (initialState "t0").db (hashPosition c1Board "white") = 0 :=
  ⟨rfl,
   c3_dedup_per_game (initialState "t0") c1Board "white" none none "g1" "t1" "g1" "t2" "t3" 0 1 rfl,
   by with_unfolding_all decide⟩

namespace Rchess

/-- No operation of the module ever creates an entry in a position's
`moves` map: `updatePositionStats` initialises it empty and
`updateGamePositions` only updates entries that already exist (the
source's `if (!moveStats)` initialisation is unreachable behind the
`position.moves[pos.move]` guard). -/
def MovesEmpty (ps : List (String × PositionRecord)) : Prop :=
  ∀ k r, lookupA ps k = some r → r.moves = []

theorem applyMoveStats_of_empty (result : String) (p : GamePos) :
    applyMoveStats result p [] = [] := by
  unfold applyMoveStats
  rcases p.move with _ | m
  · rfl
  · by_cases hm : m.isEmpty <;> simp [hm, lookupA]

theorem movesEmpty_setA {ps : List (String × PositionRecord)} {k : String}
    {v : PositionRecord} (h : MovesEmpty ps) (hv : v.moves = []) :
    MovesEmpty (setA ps k v) := by
  intro k' r' hl
  rw [lookupA_setA] at hl
  by_cases hk : k = k'
  · rw [if_pos hk] at hl
    cases hl
    exact hv
  · rw [if_neg hk] at hl
    exact h k' r' hl

theorem foldPositions_movesEmpty (result : String) :
    ∀ (l : List GamePos) (seen : List String) (ps : List (String × PositionRecord)),
      MovesEmpty ps → MovesEmpty (foldPositions result l seen ps) := by
  intro l
  induction l with
  | nil => intro seen ps h; exact h
  | cons p rest ih =>
      intro seen ps h
      by_cases hmem : p.hash ∈ seen
      · simpa [foldPositions, hmem] using ih seen ps h
      · rcases hl : lookupA ps p.hash with _ | r
        · simpa [foldPositions, hmem, hl] using ih _ ps h
        · have hr : r.moves = [] := h _ _ hl
          have hv : (applyOutcome result p r).moves = [] := by
            show applyMoveStats result p r.moves = []
            rw [hr]
            exact applyMoveStats_of_empty result p
          simpa [foldPositions, hmem, hl] using ih _ _ (movesEmpty_setA h hv)

theorem movesEmpty_updatePositionStats {db : DB} (hash : String) (board : Board)
    (player now : String) (h : MovesEmpty db.positions) :
    MovesEmpty (updatePositionStats db hash board player now).positions := by
  intro k r hl
  by_cases hk : hash = k
  · subst hk
    rw [updatePositionStats_lookup_self] at hl
    cases hl
    rcases hl0 : lookupA db.positions hash with _ | r0
    · simp [hl0, touchRecord, newPositionRecord]
    · simpa [hl0, touchRecord] using h hash r0 hl0
  · rw [updatePositionStats_lookup_ne board player now hk] at hl
    exact h k r hl

theorem reachable_movesEmpty {P : String → Prop} {st : LearnerState}
    (h : ReachableP P st) : MovesEmpty st.db.positions := by
  induction h with
  | init now =>
      intro k r hl
      simp [initialState, emptyDB, lookupA] at hl
  | start id now _ ih => exact ih
  | record board player move id now ts _ ih =>
      rw [recordPosition_db]
      exact movesEmpty_updatePositionStats _ board player now ih
  | finish result now _ _ ih =>
      rename_i st' _ _
      rw [endGame_db_positions]
      rcases st'.currentGame with _ | g
      · exact ih
      · exact foldPositions_movesEmpty result g.positions [] _ ih
  | clear now _ ih =>
      intro k r hl
      simp [reset, emptyDB, lookupA] at hl

end Rchess

def c2State : LearnerState :=
  endGame (recordPosition (initialState "t0") c1Board "white" (some "e4") "g1" "t1" 0)
    "white" "t2"

/-- C2 (refuting evaluation): fold a completed game in which move "e4"
was played from a position; the game's outcome is folded into the
record (`totalGames` becomes 1) but the move's `played`/`wins` counters
are NOT incremented — the record's `moves` map stays empty, because
`updateGamePositions` only updates a move entry that already exists and
nothing in the module ever creates one
(see `Rchess.reachable_movesEmpty`). -/
theorem c2_move_stats_dropped :
    (lookupA c2State.db.positions (hashPosition c1Board "white")).map
        PositionRecord.moves = some [] ∧
      totalGamesOf c2State.db (hashPosition c1Board "white") = 1 := by
  exact ⟨by with_unfolding_all decide, by with_unfolding_all decide⟩

namespace Rchess

theorem mem_findInconsistencies_iff (db : DB) (t : ℚ) (e : Inconsistency) :
    e ∈ findInconsistencies db t ↔
      ∃ p ∈ db.positions, ¬ p.2.totalGames < 5 ∧
        t < |(p.2.outcomes.white : ℚ) / (p.2.totalGames : ℚ) - 1/2| ∧
        e = { hash := p.1, fen := p.2.fen, expected := 1/2,
              actual := (p.2.outcomes.white : ℚ) / (p.2.totalGames : ℚ),
              games := p.2.totalGames, patterns := p.2.patterns,
              deviation := (p.2.outcomes.white : ℚ) / (p.2.totalGames : ℚ) - 1/2 } := by
  rw [findInconsistencies]
  simp only [mem_sortDescBy, List.mem_filterMap]
  constructor
  · rintro ⟨p, hp, hf⟩
    refine ⟨p, hp, ?_⟩
    by_cases h5 : p.2.totalGames < 5
    · rw [if_pos h5] at hf
      cases hf
    · rw [if_neg h5] at hf
      by_cases ht : t < |(p.2.outcomes.white : ℚ) / (p.2.totalGames : ℚ) - 1/2|
      · rw [if_pos ht] at hf
        exact ⟨h5, ht, (Option.some.inj hf).symm⟩
      · rw [if_neg ht] at hf
        cases hf
  · rintro ⟨p, hp, h5, ht, rfl⟩
    exact ⟨p, hp, by rw [if_neg h5, if_pos ht]⟩

/-- The claim's statement about `findInconsistencies`: every reported
entry comes from a stored record with at least 5 games and carries its
exact deviation data; a stored record with at least 5 games is reported
iff its absolute deviation from the 0.5 baseline exceeds the threshold;
and the report is sorted by descending absolute deviation. -/
def InconsistenciesReport (db : DB) (t : ℚ) : Prop :=
  (∀ e ∈ findInconsistencies db t,
     ∃ pos, lookupA db.positions e.hash = some pos ∧ 5 ≤ pos.totalGames ∧
       e.games = pos.totalGames ∧
       e.actual = (pos.outcomes.white : ℚ) / (pos.totalGames : ℚ) ∧
       e.expected = 1/2 ∧ e.deviation = e.actual - 1/2 ∧ t < |e.deviation|) ∧
  (∀ k pos, lookupA db.positions k = some pos → 5 ≤ pos.totalGames →
     ((∃ e ∈ findInconsistencies db t, e.hash = k) ↔
       t < |(pos.outcomes.white : ℚ) / (pos.totalGames : ℚ) - 1/2|)) ∧
  (findInconsistencies db t).Pairwise (fun a b => |b.deviation| ≤ |a.deviation|)

end Rchess

/-- C6: `findInconsistencies(threshold)` never reports a position with
`totalGames < 5`; a position with `totalGames >= 5` is reported iff
`|outcomes.white/totalGames - 0.5| > threshold`; the report is sorted by
descending absolute deviation.  (Hash keys are assumed distinct, as they
are for a JavaScript object's properties.) -/
theorem c6_find_inconsistencies (db : DB) (t : ℚ)
    (hnd : (db.positions.map Prod.fst).Nodup) : InconsistenciesReport db t := by
  refine ⟨?_, ?_, ?_⟩
  · intro e he
    obtain ⟨p, hp, h5, ht, rfl⟩ := (mem_findInconsistencies_iff db t e).mp he
    refine ⟨p.2, ?_, by omega, rfl, rfl, rfl, rfl, ?_⟩
    · exact lookupA_eq_some_of_mem_nodup hnd (by simpa using hp)
    · exact ht
  · intro k pos hl h5
    constructor
    · rintro ⟨e, he, hk⟩
      obtain ⟨p, hp, hp5, hpt, rfl⟩ := (mem_findInconsistencies_iff db t e).mp he
      have hpk : p.1 = k := hk
      subst hpk
      have hl2 : lookupA db.positions p.1 = some p.2 :=
        lookupA_eq_some_of_mem_nodup hnd (by simpa using hp)
      rw [hl] at hl2
      cases hl2
      exact hpt
    · intro ht
      have hmem : ({ hash := k, fen := pos.fen, expected := 1/2,
                     actual := (pos.outcomes.white : ℚ) / (pos.totalGames : ℚ),
                     games := pos.totalGames, patterns := pos.patterns,
                     deviation := (pos.outcomes.white : ℚ) / (pos.totalGames : ℚ) - 1/2 } :
            Inconsistency)
          ∈ findInconsistencies db t := by
        rw [mem_findInconsistencies_iff db t]
        refine ⟨(k, pos), mem_of_lookupA_eq_some hl, ?_, ?_, rfl⟩
        · show ¬ pos.totalGames < 5
          omega
        · show t < |(pos.outcomes.white : ℚ) / (pos.totalGames : ℚ) - 1/2|
          exact ht
      refine ⟨{ hash := k, fen := pos.fen, expected := 1/2,
                actual := (pos.outcomes.white : ℚ) / (pos.totalGames : ℚ),
                games := pos.totalGames, patterns := pos.patterns,
                deviation := (pos.outcomes.white : ℚ) / (pos.totalGames : ℚ) - 1/2 },
              hmem, rfl⟩
  · rw [findInconsistencies]
    exact sortDescBy_pairwise (fun e : Inconsistency => |e.deviation|) _

def c6Record4 : PositionRecord :=
  { hash := "h4", fen := "f4", firstSeen := "t", lastSeen := "t", totalGames := 4,
    outcomes := { white := 4, black := 0, draw := 0 }, moves := [], patterns := [],
    popularity := 4 }

def c6Record5 : PositionRecord :=
  { hash := "h5", fen := "f5", firstSeen := "t", lastSeen := "t", totalGames := 5,
    outcomes := { white := 5, black := 0, draw := 0 }, moves := [], patterns := [],
    popularity := 5 }

def c6DB : DB :=
  { positions := [("h4", c6Record4), ("h5", c6Record5)], games := [],
    metadata := { version := "1.0", lastUpdated := "t", totalGames := 0 } }

/-- Witness for C6: a store holding one 4-game record (maximal deviation
but gated out) and one 5-game all-white record; only the latter is
reported at threshold 0.2. -/
theorem c6_find_inconsistencies_witness :
    (c6DB.positions.map Prod.fst).Nodup ∧ InconsistenciesReport c6DB (1/5) ∧
      (findInconsistencies c6DB (1/5)).map Inconsistency.hash = ["h5"] :=
  ⟨by decide, c6_find_inconsistencies c6DB (1/5) (by decide), by
    norm_num [findInconsistencies, c6DB, c6Record4, c6Record5, List.filterMap,
      sortDescBy, insertDescBy, abs_of_nonneg]⟩

/-! ## The sister implementation (`src/learn.js`)

`learn.js` holds the move-suggestion scoring the spec describes: win
rate plus an exploration bonus.  Its position records live in an array
searched by hash; `suggestMove` looks the position up, scores each
recorded move and returns the top-scored one (`scored[0]`).  The
move-statistics shape is identical to the browser module's, so
`Rchess.MoveStats` is reused. -/

namespace LearnJs

structure LPosition where
  hash : String
  fen : String
  evaluations : Rchess.Outcomes
  moves : List (String × Rchess.MoveStats)
  patterns : List String
  last_seen : String
deriving DecidableEq

def findPosition (positions : List LPosition) (h : String) : Option LPosition :=
  positions.find? (fun p => p.hash = h)

structure ScoredMove where
  move : String
  score : ℚ
  played : Nat
deriving DecidableEq

/-- The score `suggestMove` assigns to one move: `wins/played`
(`losses/played` when asked for black) plus the exploration bonus
`0.1 * (1 - played/20)`.  The source does not clamp the bonus at zero:
it is negative as soon as `played > 20`. -/
def scoreOf (color : String) (s : Rchess.MoveStats) : ℚ :=
  (if color = "black" then (s.losses : ℚ) / (s.played : ℚ)
    else (s.wins : ℚ) / (s.played : ℚ))
  + (1/10) * (1 - (s.played : ℚ) / 20)

/-- The `scored` list of `suggestMove` after its descending stable sort. -/
def scoredMoves (moves : List (String × Rchess.MoveStats)) (color : String) :
    List ScoredMove :=
  sortDescBy (fun e => e.score)
    (moves.map fun p => { move := p.1, score := scoreOf color p.2, played := p.2.played })

/-- `suggestMove`: null when the position is unknown or has no recorded
moves, otherwise the head of the ranked list (`scored[0]`).  The
board-to-hash step is the caller's canonicalisation and is taken as
given. -/
def suggestMove (positions : List LPosition) (h : String) (color : String) :
    Option ScoredMove :=
  match findPosition positions h with
  | none => none
  | some pos =>
      if pos.moves.isEmpty then none
      else (scoredMoves pos.moves color).head?

end LearnJs

/-- The score formula as the claim states it, with the exploration bonus
clamped at zero (`k * max(0, 1 - played/threshold)`, k = 0.1,
threshold = 20).  Written from the spec's words, for comparison with
the code's `LearnJs.scoreOf`. -/
def specScoreC5 (color : String) (s : Rchess.MoveStats) : ℚ :=
  (if color = "black" then (s.losses : ℚ) / (s.played : ℚ)
    else (s.wins : ℚ) / (s.played : ℚ))
  + (1/10) * max 0 (1 - (s.played : ℚ) / 20)

/-- C5 counterexample: a move played 40 times, all wins, queried for
white.  The code assigns score `1 + 0.1*(1 - 2) = 0.9` — the bonus has
gone negative — while the claimed clamped formula gives `1 + 0 = 1`. -/
theorem c5_counterexample :
    (LearnJs.scoredMoves [("a", { played := 40, wins := 40, losses := 0, draws := 0 })]
        "white").map LearnJs.ScoredMove.score = [9/10] ∧
      specScoreC5 "white" { played := 40, wins := 40, losses := 0, draws := 0 } = 1 ∧
      (9/10 : ℚ) ≠ 1 := by
  have hwb : ¬ ("white" : String) = "black" := by decide
  refine ⟨?_, ?_, by norm_num⟩
  · norm_num [LearnJs.scoredMoves, LearnJs.scoreOf, sortDescBy, insertDescBy, hwb]
  · norm_num [specScoreC5, hwb]

/-- The ranked list the amended claim describes: each move scored
`winRate + 0.1 * (1 - played/20)` (no clamping), in input order. -/
def c5ScoredSpec (moves : List (String × Rchess.MoveStats)) (color : String) :
    List LearnJs.ScoredMove :=
  moves.map fun p =>
    { move := p.1,
      score := (if color = "black" then (p.2.losses : ℚ) / (p.2.played : ℚ)
          else (p.2.wins : ℚ) / (p.2.played : ℚ)) + (1/10) * (1 - (p.2.played : ℚ) / 20),
      played := p.2.played }

/-- C5 (amended): the suggestion ranking contains exactly the moves with
score `winRate + 0.1 * (1 - played/20)` — the exploration bonus is not
clamped at zero — sorted descending by score with ties kept in input
order (`suggestMove` then returns the top-ranked element). -/
theorem c5_amended_suggestion_ranking (moves : List (String × Rchess.MoveStats))
    (color : String) :
    (LearnJs.scoredMoves moves color).Perm (c5ScoredSpec moves color) ∧
      (LearnJs.scoredMoves moves color).Pairwise (fun a b => b.score ≤ a.score) ∧
      (∀ q : ℚ, (LearnJs.scoredMoves moves color).filter (fun e => e.score = q) =
        (c5ScoredSpec moves color).filter (fun e => e.score = q)) := by
  refine ⟨?_, ?_, ?_⟩
  · exact sortDescBy_perm (fun e => e.score) (c5ScoredSpec moves color)
  · exact sortDescBy_pairwise (fun e : LearnJs.ScoredMove => e.score) _
  · intro q
    exact sortDescBy_filter_level (fun e : LearnJs.ScoredMove => e.score)
      (c5ScoredSpec moves color) q

namespace Rchess

theorem getD_mem_or_eq {α : Type} (l : List α) (n : Nat) (d : α) :
    l.getD n d ∈ l ∨ l.getD n d = d := by
  rcases h : l[n]? with _ | a
  · right
    simp [List.getD, h]
  · left
    have hm : a ∈ l := List.getElem?_mem h
    simpa [List.getD, h] using hm

theorem sextetChar_mem (n : Nat) : sextetChar n ∈ base64Alphabet := by
  unfold sextetChar
  rcases getD_mem_or_eq base64Alphabet n 'A' with h | h
  · exact h
  · rw [h]
    decide

theorem base64Encode_mem (bs : List Nat) :
    ∀ c ∈ base64Encode bs, c ∈ base64Alphabet ∨ c = '=' := by
  induction bs using base64Encode.induct with
  | case1 =>
      intro c hc
      simp [base64Encode] at hc
  | case2 b0 =>
      intro c hc
      simp only [base64Encode, List.mem_cons] at hc
      rcases hc with rfl | rfl | rfl | rfl | hc0
      · exact Or.inl (sextetChar_mem _)
      · exact Or.inl (sextetChar_mem _)
      · exact Or.inr rfl
      · exact Or.inr rfl
      · simp at hc0
  | case3 b0 b1 =>
      intro c hc
      simp only [base64Encode, List.mem_cons] at hc
      rcases hc with rfl | rfl | rfl | rfl | hc0
      · exact Or.inl (sextetChar_mem _)
      · exact Or.inl (sextetChar_mem _)
      · exact Or.inl (sextetChar_mem _)
      · exact Or.inr rfl
      · simp at hc0
  | case4 b0 b1 b2 rest ih =>
      intro c hc
      simp only [base64Encode, List.mem_cons] at hc
      rcases hc with rfl | rfl | rfl | rfl | h
      · exact Or.inl (sextetChar_mem _)
      · exact Or.inl (sextetChar_mem _)
      · exact Or.inl (sextetChar_mem _)
      · exact Or.inl (sextetChar_mem _)
      · exact ih c h

end Rchess

/-- C9: for every 8×8 board and side-to-move string, the canonical key
has length at most 8 and consists only of characters in [A-Za-z0-9]:
the key is the 8-character base64 prefix with `+`, `/` and `=`
stripped afterwards. -/
theorem c9_hash_short_and_alphanumeric (board : Board) (currentPlayer : String) :
    (hashPosition board currentPlayer).length ≤ 8 ∧
      ∀ c ∈ (hashPosition board currentPlayer).data,
        ('A' ≤ c ∧ c ≤ 'Z') ∨ ('a' ≤ c ∧ c ≤ 'z') ∨ ('0' ≤ c ∧ c ≤ '9') := by
  have halpha : ∀ c ∈ Rchess.base64Alphabet, ¬ (c = '+' ∨ c = '/' ∨ c = '=') →
      ('A' ≤ c ∧ c ≤ 'Z') ∨ ('a' ≤ c ∧ c ≤ 'z') ∨ ('0' ≤ c ∧ c ≤ '9') := by decide
  unfold Rchess.hashPosition
  constructor
  · show (Rchess.stripKey (Rchess.btoa (Rchess.hashInput board currentPlayer))).length ≤ 8
    calc (Rchess.stripKey (Rchess.btoa (Rchess.hashInput board currentPlayer))).length
        ≤ ((Rchess.btoa (Rchess.hashInput board currentPlayer)).data.take 8).length :=
          List.length_filter_le _ _
      _ ≤ 8 := by
          rw [List.length_take]
          exact min_le_left _ _
  · intro c hc
    have hc' : c ∈ Rchess.stripKey (Rchess.btoa (Rchess.hashInput board currentPlayer)) := hc
    rw [Rchess.stripKey, List.mem_filter] at hc'
    obtain ⟨hmem, hkeep⟩ := hc'
    have hmem' : c ∈ (Rchess.btoa (Rchess.hashInput board currentPlayer)).data :=
      List.take_subset 8 _ hmem
    have hb64 : c ∈ Rchess.base64Alphabet ∨ c = '=' :=
      Rchess.base64Encode_mem _ c hmem'
    have hkeep' : ¬ (c = '+' ∨ c = '/' ∨ c = '=') := of_decide_eq_true hkeep
    rcases hb64 with h | h
    · exact halpha c h hkeep'
    · exact absurd (Or.inr (Or.inr h)) hkeep'

namespace Rchess

/-- The games `getOpeningTree` tallies under joined key `k`: completed
games with at least `depth` moves whose joined first-`depth`-moves
string equals `k`. -/
def gamesWithKey (gs : List Game) (depth : Nat) (k : String) : List Game :=
  gs.filter (fun g => decide (depth ≤ g.moves.length) && decide (openingKey depth g = k))

def countGames (gs : List Game) (depth : Nat) (k : String) : Nat :=
  (gamesWithKey gs depth k).length

def countWins (gs : List Game) (depth : Nat) (k : String) : Nat :=
  ((gamesWithKey gs depth k).filter (fun g => decide (g.result = some "white"))).length

def countLosses (gs : List Game) (depth : Nat) (k : String) : Nat :=
  ((gamesWithKey gs depth k).filter
    (fun g => decide (¬ g.result = some "white" ∧ g.result = some "black"))).length

def countDraws (gs : List Game) (depth : Nat) (k : String) : Nat :=
  ((gamesWithKey gs depth k).filter
    (fun g => decide (¬ g.result = some "white" ∧ ¬ g.result = some "black"))).length

theorem tallyGame_moves (g : Game) (e : OpeningEntry) : (tallyGame g e).moves = e.moves := by
  unfold tallyGame
  by_cases h1 : g.result = some "white"
  · simp [h1]
  · by_cases h2 : g.result = some "black" <;> simp [h1, h2]

theorem tallyGame_games (g : Game) (e : OpeningEntry) : (tallyGame g e).games = e.games + 1 := by
  unfold tallyGame
  by_cases h1 : g.result = some "white"
  · simp [h1]
  · by_cases h2 : g.result = some "black" <;> simp [h1, h2]

theorem tallyGame_wins (g : Game) (e : OpeningEntry) :
    (tallyGame g e).wins = e.wins + (if g.result = some "white" then 1 else 0) := by
  unfold tallyGame
  by_cases h1 : g.result = some "white"
  · simp [h1]
  · by_cases h2 : g.result = some "black" <;> simp [h1, h2]

theorem tallyGame_losses (g : Game) (e : OpeningEntry) :
    (tallyGame g e).losses =
      e.losses + (if ¬ g.result = some "white" ∧ g.result = some "black" then 1 else 0) := by
  unfold tallyGame
  by_cases h1 : g.result = some "white"
  · simp [h1]
  · by_cases h2 : g.result = some "black" <;> simp [h1, h2]

theorem tallyGame_draws (g : Game) (e : OpeningEntry) :
    (tallyGame g e).draws =
      e.draws + (if ¬ g.result = some "white" ∧ ¬ g.result = some "black" then 1 else 0) := by
  unfold tallyGame
  by_cases h1 : g.result = some "white"
  · simp [h1]
  · by_cases h2 : g.result = some "black" <;> simp [h1, h2]

theorem gamesWithKey_append (l1 l2 : List Game) (depth : Nat) (k : String) :
    gamesWithKey (l1 ++ l2) depth k = gamesWithKey l1 depth k ++ gamesWithKey l2 depth k :=
  List.filter_append _ _

theorem gamesWithKey_single_hit (g : Game) (depth : Nat)
    (hlen : depth ≤ g.moves.length) : gamesWithKey [g] depth (openingKey depth g) = [g] := by
  simp [gamesWithKey, hlen]

theorem gamesWithKey_single_miss (g : Game) (depth : Nat) (k : String)
    (h : ¬ (depth ≤ g.moves.length ∧ openingKey depth g = k)) :
    gamesWithKey [g] depth k = [] := by
  rcases Decidable.not_and_iff_or_not.mp h with h1 | h1 <;> simp [gamesWithKey, h1]

end Rchess

namespace Rchess

/-- Relation between an accumulator of `getOpeningTree`'s loop and the
games already processed: each stored entry carries the exact tallies of
the included games with its key, entries exist exactly for keys with at
least one included game, and the stored move prefix comes from one of
those games. -/
def TalliesOK (depth : Nat) (gs : List Game) (acc : List (String × OpeningEntry)) : Prop :=
  (∀ k, lookupA acc k = none → countGames gs depth k = 0) ∧
  (∀ k e, lookupA acc k = some e →
     e.games = countGames gs depth k ∧
     e.wins = countWins gs depth k ∧
     e.losses = countLosses gs depth k ∧
     e.draws = countDraws gs depth k ∧
     (∃ g ∈ gs, depth ≤ g.moves.length ∧ openingKey depth g = k ∧
        e.moves = g.moves.take depth))

theorem gamesWithKey_eq_nil_of_countGames_eq_zero {gs : List Game} {depth : Nat}
    {k : String} (h : countGames gs depth k = 0) : gamesWithKey gs depth k = [] :=
  List.length_eq_zero.mp h

theorem openingsAux_tallies (depth : Nat) :
    ∀ (gs processed : List Game) (acc : List (String × OpeningEntry)),
      TalliesOK depth processed acc →
      TalliesOK depth (processed ++ gs) (openingsAux depth gs acc) := by
  intro gs
  induction gs with
  | nil =>
      intro processed acc h
      simpa [openingsAux] using h
  | cons g gs' ih =>
      intro processed acc h
      obtain ⟨h0, h1⟩ := h
      by_cases hlt : g.moves.length < depth
      · have hGW : ∀ k, gamesWithKey (processed ++ [g]) depth k =
            gamesWithKey processed depth k := by
          intro k
          rw [gamesWithKey_append,
            gamesWithKey_single_miss g depth k (fun hc => absurd hc.1 (by omega)),
            List.append_nil]
        have h' : TalliesOK depth (processed ++ [g]) acc := by
          refine ⟨?_, ?_⟩
          · intro k hk
            rw [countGames, hGW k]
            exact h0 k hk
          · intro k e hk
            obtain ⟨e1, e2, e3, e4, g0, hg0, hg1, hg2, hg3⟩ := h1 k e hk
            exact ⟨by rw [countGames, hGW k]; exact e1,
              by rw [countWins, hGW k]; exact e2,
              by rw [countLosses, hGW k]; exact e3,
              by rw [countDraws, hGW k]; exact e4,
              ⟨g0, List.mem_append_left _ hg0, hg1, hg2, hg3⟩⟩
        have hrec := ih (processed ++ [g]) acc h'
        rw [List.append_assoc] at hrec
        simpa [openingsAux, hlt] using hrec
      · have hlen : depth ≤ g.moves.length := le_of_not_lt hlt
        have hGWne : ∀ k, ¬ k = openingKey depth g →
            gamesWithKey (processed ++ [g]) depth k = gamesWithKey processed depth k := by
          intro k hk
          rw [gamesWithKey_append,
            gamesWithKey_single_miss g depth k (fun hc => hk hc.2.symm),
            List.append_nil]
        have hGWk0 : gamesWithKey (processed ++ [g]) depth (openingKey depth g) =
            gamesWithKey processed depth (openingKey depth g) ++ [g] := by
          rw [gamesWithKey_append, gamesWithKey_single_hit g depth hlen]
        have hCG : countGames (processed ++ [g]) depth (openingKey depth g) =
            countGames processed depth (openingKey depth g) + 1 := by
          rw [countGames, hGWk0, List.length_append, countGames]
          rfl
        have hCW : countWins (processed ++ [g]) depth (openingKey depth g) =
            countWins processed depth (openingKey depth g) +
              (if g.result = some "white" then 1 else 0) := by
          rw [countWins, hGWk0, List.filter_append, List.length_append, countWins]
          by_cases hw : g.result = some "white" <;> simp [hw]
        have hCL : countLosses (processed ++ [g]) depth (openingKey depth g) =
            countLosses processed depth (openingKey depth g) +
              (if ¬ g.result = some "white" ∧ g.result = some "black" then 1 else 0) := by
          rw [countLosses, hGWk0, List.filter_append, List.length_append, countLosses]
          by_cases hc : ¬ g.result = some "white" ∧ g.result = some "black" <;> simp [hc]
        have hCD : countDraws (processed ++ [g]) depth (openingKey depth g) =
            countDraws processed depth (openingKey depth g) +
              (if ¬ g.result = some "white" ∧ ¬ g.result = some "black" then 1 else 0) := by
          rw [countDraws, hGWk0, List.filter_append, List.length_append, countDraws]
          by_cases hc : ¬ g.result = some "white" ∧ ¬ g.result = some "black" <;> simp [hc]
        have h' : TalliesOK depth (processed ++ [g])
            (setA acc (openingKey depth g) (tallyGame g
              (match lookupA acc (openingKey depth g) with
               | some e => e
               | none => { moves := g.moves.take depth, games := 0, wins := 0,
                           losses := 0, draws := 0 }))) := by
          refine ⟨?_, ?_⟩
          · intro k hk
            rw [lookupA_setA] at hk
            by_cases hke : openingKey depth g = k
            · rw [if_pos hke] at hk
              cases hk
            · rw [if_neg hke] at hk
              rw [countGames, hGWne k (fun hh => hke hh.symm)]
              exact h0 k hk
          · intro k e hk
            rw [lookupA_setA] at hk
            by_cases hke : openingKey depth g = k
            · rw [if_pos hke] at hk
              cases hk
              subst hke
              rcases hacc : lookupA acc (openingKey depth g) with _ | e0
              · have hz := h0 _ hacc
                have hnil := gamesWithKey_eq_nil_of_countGames_eq_zero hz
                have hzw : countWins processed depth (openingKey depth g) = 0 := by
                  rw [countWins, hnil]
                  rfl
                have hzl : countLosses processed depth (openingKey depth g) = 0 := by
                  rw [countLosses, hnil]
                  rfl
                have hzd : countDraws processed depth (openingKey depth g) = 0 := by
                  rw [countDraws, hnil]
                  rfl
                refine ⟨?_, ?_, ?_, ?_,
                  ⟨g, List.mem_append_right _ (List.mem_singleton_self g), hlen, rfl, ?_⟩⟩
                · rw [tallyGame_games, hCG, hz]
                · rw [tallyGame_wins, hCW, hzw]
                · rw [tallyGame_losses, hCL, hzl]
                · rw [tallyGame_draws, hCD, hzd]
                · rw [tallyGame_moves]
              · obtain ⟨e1, e2, e3, e4, g0, hg0, hg1, hg2, hg3⟩ := h1 _ e0 hacc
                refine ⟨?_, ?_, ?_, ?_,
                  ⟨g0, List.mem_append_left _ hg0, hg1, hg2, ?_⟩⟩
                · rw [tallyGame_games, hCG, e1]
                · rw [tallyGame_wins, hCW, e2]
                · rw [tallyGame_losses, hCL, e3]
                · rw [tallyGame_draws, hCD, e4]
                · rw [tallyGame_moves]
                  exact hg3
            · rw [if_neg hke] at hk
              obtain ⟨e1, e2, e3, e4, g0, hg0, hg1, hg2, hg3⟩ := h1 k e hk
              have hne : ¬ k = openingKey depth g := fun hh => hke hh.symm
              exact ⟨by rw [countGames, hGWne k hne]; exact e1,
                by rw [countWins, hGWne k hne]; exact e2,
                by rw [countLosses, hGWne k hne]; exact e3,
                by rw [countDraws, hGWne k hne]; exact e4,
                ⟨g0, List.mem_append_left _ hg0, hg1, hg2, hg3⟩⟩
        have hrec := ih (processed ++ [g]) _ h'
        rw [List.append_assoc] at hrec
        simpa [openingsAux, hlt] using hrec

end Rchess

namespace Rchess

theorem openingsAux_keys_nodup (depth : Nat) :
    ∀ (gs : List Game) (acc : List (String × OpeningEntry)),
      (acc.map Prod.fst).Nodup → ((openingsAux depth gs acc).map Prod.fst).Nodup := by
  intro gs
  induction gs with
  | nil =>
      intro acc h
      simpa [openingsAux] using h
  | cons g gs' ih =>
      intro acc h
      by_cases hlt : g.moves.length < depth
      · simpa [openingsAux, hlt] using ih acc h
      · simpa [openingsAux, hlt] using ih _ (setA_map_fst_nodup _ _ h)

theorem openings_keys_nodup (db : DB) (depth : Nat) :
    ((openings db depth).map Prod.fst).Nodup :=
  openingsAux_keys_nodup depth db.games [] (by simp)

/-- The amended claim about `getOpeningTree`: at most 20 entries, sorted
by descending game count; every returned entry is a stored entry of the
grouping map; the grouping map tallies games/wins/losses/draws exactly,
per distinct joined first-`depth`-moves key, over the games with at
least `depth` moves (shorter games excluded, exactly-`depth` games
included); keys without such a game have no entry. -/
def OpeningReport (db : DB) (depth : Nat) : Prop :=
  (getOpeningTree db depth).length ≤ 20 ∧
  (getOpeningTree db depth).Pairwise (fun a b => b.games ≤ a.games) ∧
  (∀ e ∈ getOpeningTree db depth, ∃ k, lookupA (openings db depth) k = some e) ∧
  (∀ k e, lookupA (openings db depth) k = some e →
     e.games = countGames db.games depth k ∧
     e.wins = countWins db.games depth k ∧
     e.losses = countLosses db.games depth k ∧
     e.draws = countDraws db.games depth k ∧
     (∃ g ∈ db.games, depth ≤ g.moves.length ∧ openingKey depth g = k ∧
        e.moves = g.moves.take depth)) ∧
  (∀ k, lookupA (openings db depth) k = none → countGames db.games depth k = 0)

end Rchess

/-- C8 (amended): `getOpeningTree(depth)` groups the completed games by
the joined string of their first `depth` moves (the ` â†’ `-delimited
key found in the source) rather than by the move sequence itself,
excludes games shorter than `depth`, includes games of exactly `depth`
moves, tallies games/wins/losses/draws per distinct key, and returns at
most 20 entries sorted by descending game count. -/
theorem c8_amended_opening_tree (db : DB) (depth : Nat) : OpeningReport db depth := by
  have hbase : TalliesOK depth ([] : List Game) [] := by
    constructor
    · intro k _
      rfl
    · intro k e hk
      simp [lookupA] at hk
  have htal : TalliesOK depth db.games (openings db depth) := by
    have h := openingsAux_tallies depth db.games [] [] hbase
    simpa [openings] using h
  refine ⟨?_, ?_, ?_, htal.2, htal.1⟩
  · rw [getOpeningTree, List.length_take]
    exact min_le_left _ _
  · have hsorted := sortDescBy_pairwise (fun e : OpeningEntry => e.games)
      ((openings db depth).map Prod.snd)
    have hsub : (getOpeningTree db depth).Sublist
        (sortDescBy (fun e : OpeningEntry => e.games) ((openings db depth).map Prod.snd)) := by
      rw [getOpeningTree]
      exact List.take_sublist _ _
    exact hsorted.sublist hsub
  · intro e he
    have hmem : e ∈ sortDescBy (fun e : OpeningEntry => e.games)
        ((openings db depth).map Prod.snd) := by
      rw [getOpeningTree] at he
      exact List.take_subset _ _ he
    rw [mem_sortDescBy] at hmem
    obtain ⟨p, hp, hpe⟩ := List.mem_map.mp hmem
    refine ⟨p.1, ?_⟩
    rw [← hpe]
    exact lookupA_eq_some_of_mem_nodup (openings_keys_nodup db depth)
      (by rw [Prod.mk.eta]; exact hp)

def c8Game1 : Game :=
  { id := "g1", startTime := "t", endTime := some "t", positions := [],
    moves := ["a â†’ b", "c"], result := some "white",
    players := { white := "human", black := "computer" } }

def c8Game2 : Game :=
  { id := "g2", startTime := "t", endTime := some "t", positions := [],
    moves := ["a", "b â†’ c"], result := some "white",
    players := { white := "human", black := "computer" } }

/-- C8 counterexample: two completed games with different first-2-move
sequences whose joined key strings collide; `getOpeningTree(2)` merges
them into a single entry with `games = 2`, so the grouping is NOT by
the sequence of the first `depth` moves as the claim states (grouping
by sequence would give two entries of one game each). -/
theorem c8_counterexample :
    c8Game1.moves.take 2 ≠ c8Game2.moves.take 2 ∧
      getOpeningTree
        { positions := [], games := [c8Game1, c8Game2],
          metadata := { version := "1.0", lastUpdated := "t", totalGames := 2 } } 2 =
      [{ moves := ["a â†’ b", "c"], games := 2, wins := 2, losses := 0, draws := 0 }] := by
  constructor
  · decide
  · decide

/-! ## Import of persisted documents

`importDatabase` assigns `this.db = JSON.parse(jsonData)` inside a
try/catch, then calls `saveDatabase` (which catches its own failures and
never throws) and returns `true`; a parse failure is caught and reported
as `false`, the previous store untouched.  The dynamically-typed store
is modelled as a JSON value and `JSON.parse` as an arbitrary partial
function supplied by the environment. -/

namespace RchessImport

inductive Json where
  | null : Json
  | bool (b : Bool) : Json
  | num (q : ℚ) : Json
  | str (s : String) : Json
  | arr (elems : List Json) : Json
  | obj (fields : List (String × Json)) : Json

/-- `saveDatabase` on a dynamically-typed store.  It runs
`this.db.metadata.lastUpdated = <now>` and then writes to storage,
inside a try/catch returning a boolean.  Reading `.metadata` off `null`
throws; assigning onto `undefined` (non-object store, or object without
the field) or onto a primitive `metadata` throws in strict mode — all
caught and reported as `false` with the store unchanged.  An
object-valued `metadata` gets its timestamp refreshed.  A property
assigned onto an array-valued `metadata` succeeds but is not part of
the JSON document, so the store is unchanged in this model.  The
storage write is modelled as succeeding. -/
def saveDatabase (j : Json) (now : String) : Bool × Json :=
  match j with
  | Json.obj fields =>
      match lookupA fields "metadata" with
      | some (Json.obj m) =>
          (true, Json.obj (setA fields "metadata"
            (Json.obj (setA m "lastUpdated" (Json.str now)))))
      | some (Json.arr _) => (true, j)
      | _ => (false, j)
  | _ => (false, j)

/-- `importDatabase`: parse, replace the store, save, report `true`;
on parse failure report `false` and leave the store as it was. -/
def importDatabase (parse : String → Option Json) (s : String) (db : Json)
    (now : String) : Bool × Json :=
  match parse s with
  | none => (false, db)
  | some v => (true, (saveDatabase v now).2)

/-- Parsed documents on which the subsequent save cannot touch a
`metadata.lastUpdated` field: non-objects (e.g. `null` or a number) and
objects with no `metadata` field.  These are installed verbatim. -/
def NoMetadataToTouch (v : Json) : Prop :=
  (∀ fs, v ≠ Json.obj fs) ∨ (∃ fs, v = Json.obj fs ∧ lookupA fs "metadata" = none)

end RchessImport

/-- C7: whenever JSON parsing fails, `importDatabase` returns `false`
(it does not throw) and the in-memory store is exactly what it was
before the call. -/
theorem c7_import_failure_keeps_store (parse : String → Option RchessImport.Json)
    (s : String) (db : RchessImport.Json) (now : String) (h : parse s = none) :
    RchessImport.importDatabase parse s db now = (false, db) := by
  unfold RchessImport.importDatabase
  rw [h]

/-- Witness for C7: a parser rejecting every input, applied to a
populated-object store. -/
theorem c7_import_failure_keeps_store_witness :
    (fun _ : String => (none : Option RchessImport.Json)) "not json" = none ∧
      RchessImport.importDatabase (fun _ => none) "not json"
        (RchessImport.Json.obj [("positions", RchessImport.Json.obj [])]) "t"
      = (false, RchessImport.Json.obj [("positions", RchessImport.Json.obj [])]) :=
  ⟨rfl, c7_import_failure_keeps_store _ _ _ _ rfl⟩

/-- C10: whenever JSON parsing succeeds, `importDatabase` returns `true`
and installs the parsed value as the whole in-memory store with no
schema validation: documents that are not objects (e.g. `null` or a
number) or that lack the positions/games/metadata fields are accepted
all the same and installed verbatim (when the document does carry an
object-valued `metadata` field, the save that follows refreshes its
`lastUpdated` timestamp). -/
theorem c10_import_accepts_any_json (parse : String → Option RchessImport.Json)
    (s : String) (db : RchessImport.Json) (now : String) (v : RchessImport.Json)
    (h : parse s = some v) :
    (RchessImport.importDatabase parse s db now).1 = true ∧
      (RchessImport.importDatabase parse s db now).2 =
        (RchessImport.saveDatabase v now).2 ∧
      (RchessImport.NoMetadataToTouch v →
        RchessImport.importDatabase parse s db now = (true, v)) := by
  unfold RchessImport.importDatabase
  rw [h]
  refine ⟨rfl, rfl, ?_⟩
  rintro (hv | ⟨fs, rfl, hm⟩)
  · match v, hv with
    | RchessImport.Json.null, _ => rfl
    | RchessImport.Json.bool b, _ => rfl
    | RchessImport.Json.num q, _ => rfl
    | RchessImport.Json.str s, _ => rfl
    | RchessImport.Json.arr a, _ => rfl
    | RchessImport.Json.obj fs, hv => exact absurd rfl (hv fs)
  · simp [RchessImport.saveDatabase, hm]

/-- Witness for C10: a parser producing the bare number 5; the store is
replaced by 5 and the call reports success. -/
theorem c10_import_accepts_any_json_witness :
    (fun _ : String => some (RchessImport.Json.num 5)) "5" = some (RchessImport.Json.num 5) ∧
      ((RchessImport.importDatabase (fun _ => some (RchessImport.Json.num 5)) "5"
          (RchessImport.Json.obj []) "t").1 = true ∧
        (RchessImport.importDatabase (fun _ => some (RchessImport.Json.num 5)) "5"
            (RchessImport.Json.obj []) "t").2 =
          (RchessImport.saveDatabase (RchessImport.Json.num 5) "t").2 ∧
        (RchessImport.NoMetadataToTouch (RchessImport.Json.num 5) →
          RchessImport.importDatabase (fun _ => some (RchessImport.Json.num 5)) "5"
            (RchessImport.Json.obj []) "t" = (true, RchessImport.Json.num 5))) :=
  ⟨rfl, c10_import_accepts_any_json _ _ _ _ _ rfl⟩
